import Mathlib

/-!
Verification development for the vault search-indexing core
(`app/search_manager.py`).

The embedding is shallow and executable:

* A filesystem path relative to the vault root is modelled as its list of
  components (`RelPath`).  `str(path.relative_to(vault))` intercalates the
  components with a slash, which is injective as long as no component
  contains a slash, so component lists are a faithful key model for both
  the Whoosh index (field `path`, compared by string equality) and the
  fingerprint-store JSON object.
* A regular file on disk is a `VFile`: its components, its `stat` data
  (mtime, size), the result of `read_text(encoding="utf-8")`
  (`none` models the call raising, e.g. on non-UTF-8 bytes), and the
  result of running `PdfReader` over it (`none` models the reader or a
  page extraction raising).  A `Vault` is the list of regular files that
  currently exist under the vault root; directories are only visible
  through the `dirs` components of files.
* The Whoosh index is the list of stored documents, in insertion order:
  `writer.add_document` appends, `writer.update_document` first removes
  every document with the same `path` key (that is what the
  `unique=True` marking on the `path` field makes it do), and
  `writer.delete_by_term` filters by key.
* The fingerprint store (`index_state.json`) is an association list with
  Python-dict semantics: lookup finds the first binding, assignment
  replaces in place or appends, `pop` removes the binding.
* Each mutating operation returns, besides the new index and store, the
  number of `save_index_state` calls it performed (each such call also
  corresponds to exactly one writer session in the source).
-/

/-! ### String material used by the source -/

def dotS : String := "."

def dotChar : Char := '.'

def underscoreS : String := "_"

def nlS : String := "\n"

def ellipsisS : String := "..."

def extMd : String := ".md"

def extTxt : String := ".txt"

def extPdf : String := ".pdf"

/-- The whitelist `['.md', '.txt', '.pdf']` from the source. -/
def wlExts : List String := [extMd, extTxt, extPdf]

/-- Python `pathlib`'s `Path(name).suffix`: the part of the final name from
its last dot, empty when the last dot is the first or last character. -/
def pySuffix (n : String) : String :=
  let cs := n.data
  match ((List.range cs.length).filter (fun i => decide (cs.getD i dotChar = dotChar))).getLast? with
  | some i => if 0 < i ∧ i + 1 < cs.length then String.mk (cs.drop i) else String.mk []
  | none => String.mk []

/-- `path.suffix.lower()` from the source. -/
def lowerSuffix (n : String) : String :=
  String.mk ((pySuffix n).data.map Char.toLower)

/-- Python `name.startswith('.')`. -/
def startsDot (n : String) : Bool :=
  match n.data with
  | [] => false
  | c :: _ => decide (c = dotChar)

/-- The per-name filter shared by the watcher (`_handle_change`, line 68)
and the reconciler (`check_consistency`, lines 233-234): the final name
component does not start with a dot and its lowered suffix is
whitelisted. -/
def nameEligible (n : String) : Bool :=
  !startsDot n && wlExts.contains (lowerSuffix n)

/-! ### Filesystem model -/

/-- A path relative to the vault root, as its list of components. -/
abbrev RelPath := List String

/-- A regular file currently on disk inside the vault. -/
structure VFile where
  dirs : List String
  name : String
  mtime : Nat
  size : Nat
  readText : Option String
  pdfPages : Option (List String)
  deriving DecidableEq

/-- `str(file_path.relative_to(self.vault_path))`, as components. -/
def VFile.relPath (f : VFile) : RelPath :=
  f.dirs ++ [f.name]

/-- The set of regular files below the vault root (what `rglob('*')`
enumerates, restricted by `is_file()`). -/
abbrev Vault := List VFile

/-- Resolving a path against the filesystem: `exists()` and `is_file()`
both hold exactly when a regular file with these components is present. -/
def findFile (vault : Vault) (p : RelPath) : Option VFile :=
  vault.find? (fun f => decide (f.relPath = p))

/-- `get_file_hash`: the fingerprint string `f"{stat.st_mtime}_{stat.st_size}"`. -/
def get_file_hash (f : VFile) : String :=
  toString f.mtime ++ underscoreS ++ toString f.size

/-! ### Fingerprint store (`index_state.json`, a Python dict) -/

abbrev IndexState := List (RelPath × String)

/-- Dict lookup: the value of the first (unique, in dict-produced states)
binding of the key. -/
def stGet : IndexState → RelPath → Option String
  | [], _ => none
  | e :: rest, k => if e.1 = k then some e.2 else stGet rest k

/-- Dict assignment `state[k] = v`: replace the binding in place when the
key is present, append it otherwise (Python dicts preserve insertion
order). -/
def stSet (st : IndexState) (k : RelPath) (v : String) : IndexState :=
  if stGet st k = none then st ++ [(k, v)]
  else st.map (fun e => if e.1 = k then (k, v) else e)

/-- Dict removal `state.pop(k, None)`: drops the binding of the key and
keeps everything else in order. -/
def stErase : IndexState → RelPath → IndexState
  | [], _ => []
  | e :: rest, k => if e.1 = k then stErase rest k else e :: stErase rest k

/-! ### Text index (the Whoosh documents, through its writer contract) -/

/-- One stored Whoosh document: stored fields `path`, `content`,
`modified` (the mtime timestamp). -/
structure Doc where
  path : RelPath
  content : String
  modified : Nat
  deriving DecidableEq

abbrev TextIndex := List Doc

/-- `writer.add_document`: appends, with no key check at all. -/
def add_document (idx : TextIndex) (d : Doc) : TextIndex :=
  idx ++ [d]

/-- `writer.update_document`: deletes every document whose unique `path`
field equals the new document's, then adds it. -/
def update_document (idx : TextIndex) (d : Doc) : TextIndex :=
  idx.filter (fun e => !decide (e.path = d.path)) ++ [d]

/-- `writer.delete_by_term('path', p)`. -/
def delete_by_term (idx : TextIndex) (p : RelPath) : TextIndex :=
  idx.filter (fun d => !decide (d.path = p))

/-! ### Content extraction -/

/-- `_extract_pdf_text`: start from the empty string and append each
page's extracted text followed by a newline; any failure of the reader or
of a page extraction is caught and yields the empty string. -/
def extract_pdf_text (f : VFile) : String :=
  match f.pdfPages with
  | some pages => pages.foldl (fun text page => text ++ page ++ nlS) (String.mk [])
  | none => String.mk []

/-- `_index_file` (the helper at lines 168-185, not called by any other
function in the source): branch on `.pdf`, extract accordingly, and
`update_document`; a raising `read_text` is caught and skips the file. -/
def index_file (idx : TextIndex) (f : VFile) : TextIndex :=
  let content? :=
    if lowerSuffix f.name = extPdf then some (extract_pdf_text f)
    else f.readText
  match content? with
  | some c => update_document idx { path := f.relPath, content := c, modified := f.mtime }
  | none => idx

/-! ### Indexing write path -/

/-- The body of the per-path loop of `index_specific_files` (lines
196-218): skip when the path no longer resolves to a regular file,
otherwise `read_text` it — for every extension, PDFs included — and on
success `add_document` it and update the fingerprint entry; a raising
read is caught and skips the path. -/
def processOne (vault : Vault) (acc : TextIndex × IndexState) (p : RelPath) :
    TextIndex × IndexState :=
  match findFile vault p with
  | none => acc
  | some f =>
    match f.readText with
    | none => acc
    | some c =>
      (add_document acc.1 { path := p, content := c, modified := f.mtime },
       stSet acc.2 p (get_file_hash f))

/-- `index_specific_files`: load the on-disk state, run the loop over the
batch inside one writer session, and save the state exactly once at the
end.  The third component counts the `save_index_state` calls. -/
def index_specific_files (vault : Vault) (idx : TextIndex) (disk : IndexState)
    (batch : List RelPath) : TextIndex × IndexState × Nat :=
  let r := batch.foldl (processOne vault) (idx, disk)
  (r.1, r.2, 1)

/-- The staleness test of `check_consistency` (line 239): the relative
path is absent from the loaded state or bound to a different hash. -/
def staleB (st : IndexState) (f : VFile) : Bool :=
  match stGet st f.relPath with
  | none => true
  | some h => decide (h ≠ get_file_hash f)

/-- The `files_to_update` set of `check_consistency` (lines 232-242):
regular files whose own name does not start with a dot, whose suffix is
whitelisted, and which are stale. -/
def filesToUpdate (vault : Vault) (st : IndexState) : List VFile :=
  vault.filter (fun f => nameEligible f.name && staleB st f)

/-- The `deleted_paths` set (lines 244-249): keys of the loaded state for
which no regular file exists (with no name or extension filter). -/
def deletedPaths (vault : Vault) (st : IndexState) : List RelPath :=
  (st.map (fun e => e.1)).filter (fun k => !vault.any (fun f => decide (f.relPath = k)))

/-- `remove_deleted_files`: one writer session deleting each path by term
and popping its state entry, then one state save. -/
def remove_deleted_files (idx : TextIndex) (disk : IndexState)
    (paths : List RelPath) : TextIndex × IndexState × Nat :=
  (paths.foldl delete_by_term idx, paths.foldl stErase disk, 1)

/-- `check_consistency` (lines 227-257): compute both sets from the state
loaded at entry, then call `remove_deleted_files` only when
`deleted_paths` is non-empty and `index_specific_files` only when
`files_to_update` is non-empty; each callee reloads the then-current
on-disk state, which the threading of the store component reproduces. -/
def check_consistency (vault : Vault) (idx : TextIndex) (disk : IndexState) :
    TextIndex × IndexState × Nat :=
  let toUp := filesToUpdate vault disk
  let toDel := deletedPaths vault disk
  let r1 := if toDel.isEmpty then (idx, disk, 0) else remove_deleted_files idx disk toDel
  let r2 := if toUp.isEmpty then (r1.1, r1.2.1, 0)
            else index_specific_files vault r1.1 r1.2.1 (toUp.map VFile.relPath)
  (r2.1, r2.2.1, r1.2.2 + r2.2.2)

/-! ### Fingerprint store persistence -/

/-- The possible conditions of the persisted `index_state.json` when
`load_index_state` runs. -/
inductive StateFile where
  | missing : StateFile
  | unreadable : StateFile
  | corrupt : StateFile
  | valid : IndexState → StateFile
  deriving DecidableEq

/-- `load_index_state` (lines 128-137): a missing file returns `{}`
directly; an open/read failure or a `json.load` failure is caught and
also returns `{}`; only a valid file yields its mapping. -/
def load_index_state : StateFile → IndexState
  | .missing => []
  | .unreadable => []
  | .corrupt => []
  | .valid m => m

/-! ### Watcher and debounce loop -/

/-- The filter of `_handle_change` (line 68), applied to the event path:
`path.suffix.lower() in ['.md', '.txt', '.pdf'] and not
path.name.startswith('.')` — both look only at the final component. -/
def watcherAccepts (p : RelPath) : Bool :=
  match p.getLast? with
  | some n => wlExts.contains (lowerSuffix n) && !startsDot n
  | none => false

/-- `_handle_change`: an accepted path is added to the pending set
(deduplicated); a rejected one leaves it untouched. -/
def handle_change (pending : List RelPath) (p : RelPath) : List RelPath :=
  if watcherAccepts p then
    if p ∈ pending then pending else pending ++ [p]
  else pending

/-- The index and store visible to the debounce loop. -/
structure Sys where
  index : TextIndex
  store : IndexState
  deriving DecidableEq

/-- One tick of `_process_loop` (lines 40-52).  `tickRaises` models
`index_specific_files` raising out of the batch (its outer `except`
re-raises, e.g. when `open_dir` or the writer acquisition fails): the
`except` of the loop catches it, and since `pending_changes.clear()` runs
only after the indexing call returns, a raising tick leaves the pending
set intact; a successful tick clears it. -/
def process_tick (vault : Vault) (tickRaises : Bool) (sys : Sys)
    (pending : List RelPath) : Sys × List RelPath :=
  if pending.isEmpty then (sys, pending)
  else if tickRaises then (sys, pending)
  else
    let r := index_specific_files vault sys.index sys.store pending
    ({ index := r.1, store := r.2.1 }, [])

/-! ### Concrete fixtures -/

def aMdS : String := "a.md"

def badTxtS : String := "b.txt"

def docPdfS : String := "doc.pdf"

def noteMdS : String := "note.md"

def hiddenDirS : String := ".hidden"

def alphaS : String := "alpha"

def betaS : String := "beta"

def pageOneS : String := "page one"

def pageTwoS : String := "page two"

/-- The file `a.md` holding `alpha`, as first indexed. -/
def aMdV1 : VFile :=
  { dirs := [], name := aMdS, mtime := 1, size := 5, readText := some alphaS, pdfPages := none }

/-- The same file after its content changed to `beta` (new mtime, size). -/
def aMdV2 : VFile :=
  { dirs := [], name := aMdS, mtime := 2, size := 4, readText := some betaS, pdfPages := none }

/-- The index and store after the first debounce batch indexes `a.md`. -/
def c1run1 : TextIndex × IndexState × Nat :=
  index_specific_files [aMdV1] [] [] [[aMdS]]

/-- The index and store after the batch that re-indexes the modified file. -/
def c1run2 : TextIndex × IndexState × Nat :=
  index_specific_files [aMdV2] c1run1.1 c1run1.2.1 [[aMdS]]

/-- A well-formed PDF whose two pages extract to text, but whose raw bytes
are not valid UTF-8 (`read_text` raises). -/
def pdfDemo : VFile :=
  { dirs := [], name := docPdfS, mtime := 1, size := 9, readText := none,
    pdfPages := some [pageOneS, pageTwoS] }

/-- A PDF the reader cannot parse at all. -/
def pdfBroken : VFile :=
  { dirs := [], name := docPdfS, mtime := 1, size := 9, readText := none, pdfPages := none }

/-- An eligible markdown file lying under the dot-directory `.hidden`. -/
def dotDirFile : VFile :=
  { dirs := [hiddenDirS], name := noteMdS, mtime := 1, size := 5, readText := some alphaS,
    pdfPages := none }

/-- The system state before the failing debounce tick of the C5 scenario. -/
def c5sys : Sys := { index := [], store := [] }

/-! ### Query engine

Whoosh's searcher is the spec's black box: it matches and scores
documents by an opaque algorithm, so the model takes the match predicate,
the scorer, and the highlighter as parameters; its contract is that
`searcher.search(query, limit=limit)` presents the matching documents in
non-increasing score order, at most `limit` of them.  Relevance scores
are modelled as naturals since only their order is observable here. -/

/-- Hits ordered by non-increasing score, the order Whoosh presents. -/
def scoreGe (a b : Doc × Nat) : Prop :=
  b.2 ≤ a.2

instance scoreGeDec : DecidableRel scoreGe :=
  fun a b => Nat.decLe b.2 a.2

instance scoreGeTotal : IsTotal (Doc × Nat) scoreGe :=
  ⟨fun a b => Nat.le_total b.2 a.2⟩

instance scoreGeTrans : IsTrans (Doc × Nat) scoreGe :=
  ⟨fun _ _ _ h1 h2 => Nat.le_trans h2 h1⟩

/-- `searcher.search(query, limit=limit)`: score the matching documents,
order them by non-increasing score, return at most `limit` hits. -/
def whooshSearch (sc : String → Doc → Nat) (mt : String → Doc → Bool)
    (idx : TextIndex) (q : String) (limit : Nat) : List (Doc × Nat) :=
  (List.insertionSort scoreGe ((idx.filter (mt q)).map (fun d => (d, sc q d)))).take limit

/-- Python `a or b` on strings: `b` exactly when `a` is empty. -/
def pyOrS (a b : String) : String :=
  if a = String.mk [] then b else a

/-- Python slicing `s[:k]`: the first `k` characters. -/
def pyTake (s : String) (k : Nat) : String :=
  String.mk (s.data.take k)

/-- The preview of one hit (line 289):
`hit.highlights("content") or hit["content"][:200] + "..."`. -/
def previewOf (hl : String → String → String) (q c : String) : String :=
  pyOrS (hl q c) (pyTake c 200 ++ ellipsisS)

/-- The `SearchResult` model of the source. -/
structure SearchResult where
  path : RelPath
  content_preview : String
  score : Nat
  modified : Nat
  deriving DecidableEq

/-- The result list built by `search` (lines 282-297): one `SearchResult`
per hit, in hit order. -/
def searchResults (hl : String → String → String) (sc : String → Doc → Nat)
    (mt : String → Doc → Bool) (idx : TextIndex) (q : String) (limit : Nat) :
    List SearchResult :=
  (whooshSearch sc mt idx q limit).map (fun h =>
    { path := h.1.path, content_preview := previewOf hl q h.1.content,
      score := h.2, modified := h.1.modified })

/-- The whole `search` method as a state transformer: it opens the index
and only ever a searcher over it; `ok = false` models any internal
failure (`open_dir`, parsing, searching), which the `except` logs and
re-raises, yielding no result.  The persisted store file is carried to
record that `search` never touches it. -/
def searchOp (hl : String → String → String) (sc : String → Doc → Nat)
    (mt : String → Doc → Bool) (ok : Bool) (sys : Sys) (stf : StateFile)
    (q : String) (limit : Nat) :
    Option (List SearchResult) × Sys × StateFile :=
  if ok then (some (searchResults hl sc mt sys.index q limit), sys, stf)
  else (none, sys, stf)

/-- An eligible `.txt` file whose bytes are not valid UTF-8, so
`read_text(encoding='utf-8')` raises. -/
def binTxt : VFile :=
  { dirs := [], name := badTxtS, mtime := 3, size := 7, readText := none, pdfPages := none }

/-- The result of the first reconciliation over the vault `[binTxt]`. -/
def c3run1 : TextIndex × IndexState × Nat :=
  check_consistency [binTxt] [] []

/-- The name-level filter as a predicate on index/store keys: the final
component exists, does not start with a dot, and has a whitelisted
suffix.  Nothing constrains the directory components. -/
def goodKey (p : RelPath) : Bool :=
  match p.getLast? with
  | some n => nameEligible n
  | none => false

/-- Every stored document's key passes the name-level filter. -/
def IndexGood (idx : TextIndex) : Bool :=
  idx.all (fun d => goodKey d.path)

/-- Every fingerprint key passes the name-level filter. -/
def StoreGood (st : IndexState) : Bool :=
  st.all (fun e => goodKey e.1)

/-! ### Claim theorems -/

/-- C1: the claim says re-indexing a path overwrites the existing Document,
leaving exactly one Document per path with the latest content.  The write
path `index_specific_files` instead calls `writer.add_document` (line 208),
which performs no key check, so indexing `a.md` twice leaves two Documents
under that path and the superseded content still stored; the dead helper
`_index_file`, which uses `update_document`, would have overwritten as the
claim (and the `unique=True` schema marking) intends. -/
theorem C1_add_document_duplicates :
    (c1run2.1.filter (fun d => decide (d.path = [aMdS]))).length = 2 ∧
    c1run2.1.map Doc.content = [alphaS, betaS] ∧
    (index_file (index_file [] aMdV1) aMdV2).map Doc.content = [betaS] := by
  decide

/-- C2: the claim says the indexing write path stores, for a PDF, the
newline-joined page texts produced by the page-based reader, degrading to
the empty string on extraction failure.  The helper `_extract_pdf_text`
does behave exactly so, but `index_specific_files` never calls it: it
applies `read_text(encoding='utf-8')` to every path (line 204), which
raises on PDF bytes, so the file is skipped and no Document is stored at
all — while the uncalled `_index_file` would have stored the page text. -/
theorem C2_write_path_skips_pdf :
    extract_pdf_text pdfDemo = pageOneS ++ nlS ++ pageTwoS ++ nlS ∧
    extract_pdf_text pdfBroken = String.mk [] ∧
    (index_specific_files [pdfDemo] [] [] [[docPdfS]]).1 = [] ∧
    (index_specific_files [pdfDemo] [] [] [[docPdfS]]).2.1 = [] ∧
    index_file [] pdfDemo =
      [{ path := [docPdfS], content := pageOneS ++ nlS ++ pageTwoS ++ nlS, modified := 1 }] := by
  decide

/-- C4 counterexample: the claim says a file lying under a dot-directory
never appears in the Text Index or the Fingerprint Store, but both filters
in the source inspect only the final name component, so one reconciliation
over a vault holding `.hidden/note.md` indexes it and records its
fingerprint. -/
theorem C4_dotdir_counterexample :
    (check_consistency [dotDirFile] [] []).1.map Doc.path = [[hiddenDirS, noteMdS]] ∧
    stGet (check_consistency [dotDirFile] [] []).2.1 [hiddenDirS, noteMdS] =
      some (get_file_hash dotDirFile) := by
  decide

/-- C8: under every degraded persisted-state condition — file missing,
file unreadable, or corrupt JSON — `load_index_state` returns the empty
mapping instead of raising; and against an empty mapping the reconciler
schedules exactly the eligible files for re-indexing (a full reindex, not
a crash). -/
theorem C8_load_state_degrades :
    load_index_state StateFile.missing = [] ∧
    load_index_state StateFile.unreadable = [] ∧
    load_index_state StateFile.corrupt = [] ∧
    ∀ vault : Vault, filesToUpdate vault (load_index_state StateFile.corrupt) =
      vault.filter (fun f => nameEligible f.name) := by
  refine ⟨rfl, rfl, rfl, fun vault => List.filter_congr (fun f _ => ?_)⟩
  simp [staleB, stGet]

/-- C5 counterexample: the claim says the Debounce Processor never
re-submits a failed batch itself.  But `pending_changes.clear()` runs only
after `index_specific_files` returns, so when the batch raises (first
tick, `tickRaises = true`) the paths stay pending, and the very next tick
re-submits and indexes them with no fresh watcher event and no
reconciliation. -/
theorem C5_failed_tick_retries :
    (process_tick [aMdV1] true c5sys [[aMdS]]).2 = [[aMdS]] ∧
    (process_tick [aMdV1] false (process_tick [aMdV1] true c5sys [[aMdS]]).1
        (process_tick [aMdV1] true c5sys [[aMdS]]).2).1.index.map Doc.path = [[aMdS]] ∧
    (process_tick [aMdV1] false (process_tick [aMdV1] true c5sys [[aMdS]]).1
        (process_tick [aMdV1] true c5sys [[aMdS]]).2).2 = [] := by
  decide

/-- C5 amended: a debounce tick whose batch raises leaves both the system
state and the pending set exactly as they were, so the Debounce Processor
itself re-submits the same batch on the next tick, which behaves as if it
were the first attempt; only a tick that completes clears the pending
set, and per-path failures inside a completed batch are not re-submitted
by the processor. -/
theorem C5_amended_failed_tick_kept_pending (vault : Vault) (sys : Sys)
    (pending : List RelPath) :
    process_tick vault true sys pending = (sys, pending) ∧
    (process_tick vault false sys pending).2 = [] ∧
    process_tick vault false (process_tick vault true sys pending).1
        (process_tick vault true sys pending).2 =
      process_tick vault false sys pending := by
  have h1 : process_tick vault true sys pending = (sys, pending) := by
    unfold process_tick
    split
    · rfl
    · rfl
  refine ⟨h1, ?_, by rw [h1]⟩
  unfold process_tick
  split
  · rename_i h
    simp_all [List.isEmpty_iff]
  · rfl

/-- C9: a path of the batch on which the per-path work fails — the file no
longer resolves (race with deletion) or its read raises — is skipped by
the caught inner exception, every other path of the batch is processed
exactly as it would have been without it, and the fingerprint store is
saved exactly once at the end of the batch. -/
theorem C9_batch_isolation (vault : Vault) (idx : TextIndex) (st : IndexState)
    (xs ys : List RelPath) (p : RelPath)
    (hfail : findFile vault p = none ∨
      ∃ f, findFile vault p = some f ∧ f.readText = none) :
    index_specific_files vault idx st (xs ++ p :: ys) =
      index_specific_files vault idx st (xs ++ ys) ∧
    (index_specific_files vault idx st (xs ++ p :: ys)).2.2 = 1 := by
  have hid : ∀ acc, processOne vault acc p = acc := by
    intro acc
    rcases hfail with h | ⟨f, hf, hr⟩
    · simp [processOne, h]
    · simp [processOne, hf, hr]
  constructor
  · unfold index_specific_files
    rw [List.foldl_append, List.foldl_append, List.foldl_cons, hid]
  · rfl

/-- C9 witness: in a vault holding only the readable `a.md`, a batch
containing the vanished `b.txt` behaves exactly like the batch without
it, with a single state save. -/
theorem C9_batch_isolation_witness :
    findFile [aMdV1] [badTxtS] = none ∧
    (index_specific_files [aMdV1] [] [] [[aMdS], [badTxtS]] =
        index_specific_files [aMdV1] [] [] [[aMdS]] ∧
      (index_specific_files [aMdV1] [] [] [[aMdS], [badTxtS]]).2.2 = 1) :=
  ⟨by decide, C9_batch_isolation [aMdV1] [] [] [[aMdS]] [] [badTxtS] (Or.inl (by decide))⟩

/-- C6: for every query and limit, `search` returns at most `limit`
results, and their scores are in non-increasing order. -/
theorem C6_search_limit_sorted (hl : String → String → String)
    (sc : String → Doc → Nat) (mt : String → Doc → Bool) (idx : TextIndex)
    (q : String) (limit : Nat) :
    (searchResults hl sc mt idx q limit).length ≤ limit ∧
    List.Sorted (fun a b : Nat => b ≤ a)
      ((searchResults hl sc mt idx q limit).map SearchResult.score) := by
  constructor
  · simp only [searchResults, whooshSearch, List.length_map, List.length_take]
    exact Nat.min_le_left _ _
  · have hs : List.Sorted scoreGe
        (List.insertionSort scoreGe ((idx.filter (mt q)).map (fun d => (d, sc q d)))) :=
      List.sorted_insertionSort scoreGe _
    have ht : List.Pairwise scoreGe (whooshSearch sc mt idx q limit) :=
      List.Pairwise.sublist (List.take_sublist _ _) hs
    have hm := List.Pairwise.map (R := scoreGe) (S := fun a b : Nat => b ≤ a)
      Prod.snd (fun _ _ h => h) ht
    simpa [searchResults, List.map_map, Function.comp] using hm

/-- C7: each returned hit's `content_preview` is the index's highlighted
excerpt when that excerpt is non-empty, and otherwise the first 200
characters of the stored content followed by the ellipsis marker. -/
theorem C7_preview_rule (hl : String → String → String) (sc : String → Doc → Nat)
    (mt : String → Doc → Bool) (idx : TextIndex) (q : String) (limit : Nat)
    (c : String) :
    (searchResults hl sc mt idx q limit).map SearchResult.content_preview =
      (whooshSearch sc mt idx q limit).map (fun h => previewOf hl q h.1.content) ∧
    previewOf hl q c =
      (if hl q c = String.mk [] then pyTake c 200 ++ ellipsisS else hl q c) := by
  constructor
  · simp [searchResults, List.map_map]
  · rfl

/-- C10: `search` leaves the Text Index, the in-memory store, and the
persisted store file untouched whether it succeeds or raises: it opens
only a searcher, never a writer, and never saves state. -/
theorem C10_search_frame (hl : String → String → String) (sc : String → Doc → Nat)
    (mt : String → Doc → Bool) (ok : Bool) (sys : Sys) (stf : StateFile)
    (q : String) (limit : Nat) :
    (searchOp hl sc mt ok sys stf q limit).2.1 = sys ∧
    (searchOp hl sc mt ok sys stf q limit).2.2 = stf := by
  cases ok <;> simp [searchOp]

/-! ### Store and fold lemmas -/

/-- Keys absent from the left list look past an append. -/
theorem stGet_append_of_none : ∀ (st1 : IndexState) (st2 : IndexState) (k : RelPath),
    stGet st1 k = none → stGet (st1 ++ st2) k = stGet st2 k
  | [], _, _, _ => rfl
  | e :: rest, st2, k, h => by
    by_cases he : e.1 = k
    · rw [stGet, if_pos he] at h
      cases h
    · rw [stGet, if_neg he] at h
      rw [List.cons_append, stGet, if_neg he]
      exact stGet_append_of_none rest st2 k h

/-- Replacing the binding of a present key in place makes it read the new
value. -/
theorem stGet_map_set_self : ∀ (st : IndexState) (k : RelPath) (v : String),
    stGet st k ≠ none →
    stGet (st.map (fun e => if e.1 = k then (k, v) else e)) k = some v
  | [], _, _, h => absurd rfl h
  | e :: rest, k, v, h => by
    by_cases he : e.1 = k
    · rw [List.map_cons, if_pos he, stGet, if_pos rfl]
    · rw [stGet, if_neg he] at h
      rw [List.map_cons, if_neg he, stGet, if_neg he]
      exact stGet_map_set_self rest k v h

/-- Replacing the binding of one key in place leaves other keys
unchanged. -/
theorem stGet_map_set_ne : ∀ (st : IndexState) (k : RelPath) (v : String) (q : RelPath),
    ¬k = q → stGet (st.map (fun e => if e.1 = k then (k, v) else e)) q = stGet st q
  | [], _, _, _, _ => rfl
  | e :: rest, k, v, q, hkq => by
    rw [List.map_cons, stGet]
    by_cases he : e.1 = k
    · have heq : ¬e.1 = q := he ▸ hkq
      rw [if_pos he, stGet, if_neg hkq, if_neg heq]
      exact stGet_map_set_ne rest k v q hkq
    · rw [if_neg he, stGet]
      by_cases heq : e.1 = q
      · rw [if_pos heq, if_pos heq]
      · rw [if_neg heq, if_neg heq]
        exact stGet_map_set_ne rest k v q hkq

/-- Appending a fresh binding is invisible to other keys. -/
theorem stGet_append_single_ne : ∀ (st : IndexState) (k : RelPath) (v : String)
    (q : RelPath), ¬k = q → stGet (st ++ [(k, v)]) q = stGet st q
  | [], k, v, q, hkq => by
    simp [stGet, hkq]
  | e :: rest, k, v, q, hkq => by
    rw [List.cons_append, stGet, stGet]
    by_cases he : e.1 = q
    · rw [if_pos he, if_pos he]
    · rw [if_neg he, if_neg he]
      exact stGet_append_single_ne rest k v q hkq

/-- Assignment makes the assigned key read back its value. -/
theorem stGet_stSet_self (st : IndexState) (k : RelPath) (v : String) :
    stGet (stSet st k v) k = some v := by
  unfold stSet
  by_cases h : stGet st k = none
  · rw [if_pos h, stGet_append_of_none st [(k, v)] k h, stGet, if_pos rfl]
  · rw [if_neg h]
    exact stGet_map_set_self st k v h

/-- Assignment leaves every other key unchanged. -/
theorem stGet_stSet_ne (st : IndexState) (k : RelPath) (v : String) (q : RelPath)
    (hne : ¬q = k) : stGet (stSet st k v) q = stGet st q := by
  have hkq : ¬k = q := fun hh => hne hh.symm
  unfold stSet
  split
  · exact stGet_append_single_ne st k v q hkq
  · exact stGet_map_set_ne st k v q hkq

/-- Removal erases the removed key. -/
theorem stGet_stErase_self : ∀ (st : IndexState) (k : RelPath),
    stGet (stErase st k) k = none
  | [], _ => rfl
  | e :: rest, k => by
    rw [stErase]
    by_cases he : e.1 = k
    · rw [if_pos he]
      exact stGet_stErase_self rest k
    · rw [if_neg he, stGet, if_neg he]
      exact stGet_stErase_self rest k

/-- Removal leaves every other key unchanged. -/
theorem stGet_stErase_ne : ∀ (st : IndexState) (k : RelPath) (q : RelPath),
    ¬q = k → stGet (stErase st k) q = stGet st q
  | [], _, _, _ => rfl
  | e :: rest, k, q, hqk => by
    rw [stErase, stGet]
    by_cases he : e.1 = k
    · have heq : ¬e.1 = q := fun hh => hqk (hh ▸ he.symm ▸ rfl)
      rw [if_pos he, if_neg heq]
      exact stGet_stErase_ne rest k q hqk
    · rw [if_neg he, stGet]
      by_cases heq : e.1 = q
      · rw [if_pos heq, if_pos heq]
      · rw [if_neg heq, if_neg heq]
        exact stGet_stErase_ne rest k q hqk

/-- A key outside the deleted set survives the whole deletion fold. -/
theorem stGet_eraseFold_not_mem : ∀ (l : List RelPath) (st : IndexState) (k : RelPath),
    k ∉ l → stGet (l.foldl stErase st) k = stGet st k
  | [], _, _, _ => rfl
  | a :: rest, st, k, h => by
    have hka : ¬k = a := fun hh => h (hh ▸ List.mem_cons_self a rest)
    have hkr : k ∉ rest := fun hh => h (List.mem_cons_of_mem a hh)
    rw [List.foldl_cons, stGet_eraseFold_not_mem rest (stErase st a) k hkr,
      stGet_stErase_ne st a k hka]

/-- Every key of the deleted set is gone after the deletion fold. -/
theorem stGet_eraseFold_mem : ∀ (l : List RelPath) (st : IndexState) (k : RelPath),
    k ∈ l → stGet (l.foldl stErase st) k = none
  | [], _, _, h => absurd h (List.not_mem_nil _)
  | a :: rest, st, k, h => by
    rw [List.foldl_cons]
    by_cases hm : k ∈ rest
    · exact stGet_eraseFold_mem rest (stErase st a) k hm
    · have hka : k = a := by
        rcases List.mem_cons.mp h with h1 | h2
        · exact h1
        · exact absurd h2 hm
      rw [stGet_eraseFold_not_mem rest (stErase st a) k hm, hka, stGet_stErase_self]

/-- The deletion fold never creates a key. -/
theorem stGet_eraseFold_subset (l : List RelPath) (st : IndexState) (k : RelPath)
    (h : stGet (l.foldl stErase st) k ≠ none) : stGet st k ≠ none := by
  by_cases hm : k ∈ l
  · exact absurd (stGet_eraseFold_mem l st k hm) h
  · rw [stGet_eraseFold_not_mem l st k hm] at h
    exact h

/-- A key is readable exactly when it appears among the stored keys. -/
theorem stGet_ne_none_iff : ∀ (st : IndexState) (k : RelPath),
    stGet st k ≠ none ↔ k ∈ st.map (fun e => e.1)
  | [], k => by simp [stGet]
  | e :: rest, k => by
    by_cases he : e.1 = k
    · simp [stGet, he]
    · rw [stGet, if_neg he, List.map_cons, List.mem_cons]
      rw [stGet_ne_none_iff rest k]
      constructor
      · exact Or.inr
      · rintro (h1 | h2)
        · exact absurd h1.symm he
        · exact h2

/-- Paths outside the batch keep their store binding across the indexing
fold. -/
theorem procFold_st_not_mem : ∀ (vault : Vault) (batch : List RelPath)
    (acc : TextIndex × IndexState) (k : RelPath), k ∉ batch →
    stGet (batch.foldl (processOne vault) acc).2 k = stGet acc.2 k
  | _, [], _, _, _ => rfl
  | vault, p :: rest, acc, k, h => by
    have hkp : ¬k = p := fun hh => h (hh ▸ List.mem_cons_self p rest)
    have hkr : k ∉ rest := fun hh => h (List.mem_cons_of_mem p hh)
    rw [List.foldl_cons, procFold_st_not_mem vault rest (processOne vault acc p) k hkr]
    rcases hf : findFile vault p with _ | f
    · simp [processOne, hf]
    · rcases hr : f.readText with _ | c
      · simp [processOne, hf, hr]
      · simp only [processOne, hf, hr]
        exact stGet_stSet_ne acc.2 p (get_file_hash f) k hkp

/-- A batch path that resolves to a readable file ends the indexing fold
bound to that file's fingerprint. -/
theorem procFold_st_mem : ∀ (vault : Vault) (batch : List RelPath)
    (acc : TextIndex × IndexState) (k : RelPath) (f : VFile) (c : String),
    k ∈ batch → findFile vault k = some f → f.readText = some c →
    stGet (batch.foldl (processOne vault) acc).2 k = some (get_file_hash f)
  | _, [], _, _, _, _, hk, _, _ => absurd hk (List.not_mem_nil _)
  | vault, p :: rest, acc, k, f, c, hk, hf, hr => by
    rw [List.foldl_cons]
    by_cases hm : k ∈ rest
    · exact procFold_st_mem vault rest (processOne vault acc p) k f c hm hf hr
    · have hkp : k = p := by
        rcases List.mem_cons.mp hk with h1 | h2
        · exact h1
        · exact absurd h2 hm
      subst hkp
      rw [procFold_st_not_mem vault rest (processOne vault acc k) k hm]
      simp only [processOne, hf, hr]
      exact stGet_stSet_self acc.2 k (get_file_hash f)

/-- The indexing fold creates store keys only for batch paths. -/
theorem procFold_st_keys : ∀ (vault : Vault) (batch : List RelPath)
    (acc : TextIndex × IndexState) (k : RelPath),
    stGet (batch.foldl (processOne vault) acc).2 k ≠ none →
    stGet acc.2 k ≠ none ∨ k ∈ batch
  | _, [], _, _, h => Or.inl h
  | vault, p :: rest, acc, k, h => by
    rw [List.foldl_cons] at h
    rcases procFold_st_keys vault rest (processOne vault acc p) k h with h1 | h2
    · rcases hf : findFile vault p with _ | f
      · rw [show processOne vault acc p = acc by simp [processOne, hf]] at h1
        exact Or.inl h1
      · rcases hr : f.readText with _ | c
        · rw [show processOne vault acc p = acc by simp [processOne, hf, hr]] at h1
          exact Or.inl h1
        · rw [show processOne vault acc p =
              (add_document acc.1 { path := p, content := c, modified := f.mtime },
               stSet acc.2 p (get_file_hash f)) by simp [processOne, hf, hr]] at h1
          by_cases hkp : k = p
          · exact Or.inr (hkp ▸ List.mem_cons_self p rest)
          · rw [stGet_stSet_ne acc.2 p (get_file_hash f) k hkp] at h1
            exact Or.inl h1
    · exact Or.inr (List.mem_cons_of_mem p h2)

/-- In a vault with pairwise-distinct relative paths, resolving a member
file's path finds that very file. -/
theorem findFile_self : ∀ (vault : Vault) (f : VFile),
    (vault.map VFile.relPath).Nodup → f ∈ vault → findFile vault f.relPath = some f
  | [], f, _, hm => absurd hm (List.not_mem_nil _)
  | g :: rest, f, hnd, hm => by
    rw [List.map_cons, List.nodup_cons] at hnd
    unfold findFile
    by_cases hg : g.relPath = f.relPath
    · rw [List.find?_cons_of_pos _ (by simp [hg])]
      rcases List.mem_cons.mp hm with h1 | h2
      · rw [h1]
      · exact absurd (hg ▸ List.mem_map_of_mem VFile.relPath h2) hnd.1
    · rw [List.find?_cons_of_neg _ (by simp [hg])]
      rcases List.mem_cons.mp hm with h1 | h2
      · exact absurd (h1 ▸ rfl) hg
      · exact findFile_self rest f hnd.2 h2

/-- Distinct member files of a path-deduplicated vault with equal relative
paths are equal. -/
theorem relPath_inj {vault : Vault} {f g : VFile}
    (hnd : (vault.map VFile.relPath).Nodup) (hf : f ∈ vault) (hg : g ∈ vault)
    (h : f.relPath = g.relPath) : f = g :=
  List.inj_on_of_nodup_map hnd hf hg h

/-- The two state-bearing components of `check_consistency`, with the
empty-set guards folded away (a fold over the empty list is the
identity). -/
theorem cc_eq (vault : Vault) (idx : TextIndex) (disk : IndexState) :
    ((check_consistency vault idx disk).1, (check_consistency vault idx disk).2.1) =
      ((filesToUpdate vault disk).map VFile.relPath).foldl (processOne vault)
        ((deletedPaths vault disk).foldl delete_by_term idx,
         (deletedPaths vault disk).foldl stErase disk) := by
  unfold check_consistency remove_deleted_files index_specific_files
  by_cases h1 : (deletedPaths vault disk).isEmpty
  · have e1 : deletedPaths vault disk = [] := List.isEmpty_iff.mp h1
    by_cases h2 : (filesToUpdate vault disk).isEmpty
    · have e2 : filesToUpdate vault disk = [] := List.isEmpty_iff.mp h2
      simp [h1, h2, e1, e2]
    · simp [h1, h2, e1]
  · by_cases h2 : (filesToUpdate vault disk).isEmpty
    · have e2 : filesToUpdate vault disk = [] := List.isEmpty_iff.mp h2
      simp [h1, h2, e2]
    · simp [h1, h2]

/-- C3 counterexample: the claim promises idempotence for every
filesystem state, but when an eligible file's read raises, the batch skips
it without recording its fingerprint, so the very next reconciliation
finds it stale again: over the vault `[binTxt]` the second run computes a
non-empty `toUpsert` and performs another writer session and state save. -/
theorem C3_unreadable_counterexample :
    filesToUpdate [binTxt] c3run1.2.1 ≠ [] ∧
    (check_consistency [binTxt] c3run1.1 c3run1.2.1).2.2 ≠ 0 := by
  decide

/-- A reconciliation that computes empty `toUpsert` and `toDelete` calls
neither writer helper and returns its inputs with a zero save count. -/
theorem cc_of_empty (vault : Vault) (idx : TextIndex) (st : IndexState)
    (h1 : filesToUpdate vault st = []) (h2 : deletedPaths vault st = []) :
    check_consistency vault idx st = (idx, st, 0) := by
  simp only [check_consistency, h1, h2]
  simp

/-- C3 amended: provided every eligible file of the vault is readable
(its UTF-8 read does not raise) and vault paths are distinct, a
reconciliation run leaves a state against which the next run computes
empty `toUpsert` and `toDelete` and therefore performs zero index writes
and zero Fingerprint Store saves: it returns the index and store
untouched with a zero operation count. -/
theorem C3_amended_idempotent_when_readable (vault : Vault) (idx0 : TextIndex)
    (st0 : IndexState)
    (hnd : (vault.map VFile.relPath).Nodup)
    (hread : ∀ f ∈ vault, nameEligible f.name = true → f.readText ≠ none) :
    filesToUpdate vault (check_consistency vault idx0 st0).2.1 = [] ∧
    deletedPaths vault (check_consistency vault idx0 st0).2.1 = [] ∧
    check_consistency vault (check_consistency vault idx0 st0).1
        (check_consistency vault idx0 st0).2.1 =
      ((check_consistency vault idx0 st0).1, (check_consistency vault idx0 st0).2.1, 0) := by
  have hpair := cc_eq vault idx0 st0
  have hst1 : (check_consistency vault idx0 st0).2.1 =
      (((filesToUpdate vault st0).map VFile.relPath).foldl (processOne vault)
        ((deletedPaths vault st0).foldl delete_by_term idx0,
         (deletedPaths vault st0).foldl stErase st0)).2 :=
    congrArg Prod.snd hpair
  have hF1 : ∀ f ∈ vault, nameEligible f.name = true →
      stGet (((filesToUpdate vault st0).map VFile.relPath).foldl (processOne vault)
        ((deletedPaths vault st0).foldl delete_by_term idx0,
         (deletedPaths vault st0).foldl stErase st0)).2 f.relPath =
        some (get_file_hash f) := by
    intro f hf helig
    by_cases hup : f ∈ filesToUpdate vault st0
    · have hb : f.relPath ∈ (filesToUpdate vault st0).map VFile.relPath :=
        List.mem_map_of_mem VFile.relPath hup
      have hff : findFile vault f.relPath = some f := findFile_self vault f hnd hf
      obtain ⟨c, hc⟩ := Option.ne_none_iff_exists'.mp (hread f hf helig)
      exact procFold_st_mem vault _ _ f.relPath f c hb hff hc
    · have hcond : (nameEligible f.name && staleB st0 f) ≠ true :=
        fun hx => hup (List.mem_filter.mpr ⟨hf, hx⟩)
      rw [helig, Bool.true_and] at hcond
      have hstale : staleB st0 f = false := by
        cases hx : staleB st0 f
        · rfl
        · exact absurd hx hcond
      have hget : stGet st0 f.relPath = some (get_file_hash f) := by
        unfold staleB at hstale
        rcases hh : stGet st0 f.relPath with _ | h
        · simp only [hh] at hstale
          exact Bool.noConfusion hstale
        · simp only [hh] at hstale
          have heq : h = get_file_hash f := by
            by_contra hx
            rw [decide_eq_true hx] at hstale
            cases hstale
          rw [heq]
      have hnotdel : f.relPath ∉ deletedPaths vault st0 := by
        intro hmem
        have hpred := (List.mem_filter.mp hmem).2
        have hany : vault.any (fun g => decide (g.relPath = f.relPath)) = true :=
          List.any_eq_true.mpr ⟨f, hf, by simp⟩
        rw [hany] at hpred
        cases hpred
      have hnb : f.relPath ∉ (filesToUpdate vault st0).map VFile.relPath := by
        intro hbm
        obtain ⟨g, hgmem, hgeq⟩ := List.mem_map.mp hbm
        have hgv : g ∈ vault := List.mem_of_mem_filter hgmem
        have hgf : g = f := relPath_inj hnd hgv hf hgeq
        exact hup (hgf ▸ hgmem)
      rw [procFold_st_not_mem vault _ _ f.relPath hnb]
      rw [stGet_eraseFold_not_mem _ st0 _ hnotdel]
      exact hget
  have hF2 : ∀ k : RelPath,
      stGet (((filesToUpdate vault st0).map VFile.relPath).foldl (processOne vault)
        ((deletedPaths vault st0).foldl delete_by_term idx0,
         (deletedPaths vault st0).foldl stErase st0)).2 k ≠ none →
      vault.any (fun g => decide (g.relPath = k)) = true := by
    intro k hk
    rcases procFold_st_keys vault _ _ k hk with h1 | h2
    · have h0 : stGet st0 k ≠ none := stGet_eraseFold_subset _ st0 k h1
      by_contra hany
      have hany' : vault.any (fun g => decide (g.relPath = k)) = false := by
        cases hx : vault.any (fun g => decide (g.relPath = k))
        · rfl
        · exact absurd hx hany
      have hmem : k ∈ st0.map (fun e => e.1) := (stGet_ne_none_iff st0 k).mp h0
      have hdel : k ∈ deletedPaths vault st0 :=
        List.mem_filter.mpr ⟨hmem, by rw [hany']; rfl⟩
      exact h1 (stGet_eraseFold_mem _ st0 k hdel)
    · obtain ⟨g, hgmem, hgeq⟩ := List.mem_map.mp h2
      exact List.any_eq_true.mpr ⟨g, List.mem_of_mem_filter hgmem, by simp [hgeq]⟩
  have ha : filesToUpdate vault (check_consistency vault idx0 st0).2.1 = [] := by
    unfold filesToUpdate
    apply List.filter_eq_nil_iff.mpr
    intro f hf
    rw [Bool.not_eq_true]
    by_cases helig : nameEligible f.name = true
    · rw [helig, Bool.true_and]
      unfold staleB
      rw [hst1, hF1 f hf helig]
      simp
    · have hfalse : nameEligible f.name = false := by
        cases hx : nameEligible f.name
        · rfl
        · exact absurd hx helig
      rw [hfalse, Bool.false_and]
  have hb : deletedPaths vault (check_consistency vault idx0 st0).2.1 = [] := by
    unfold deletedPaths
    apply List.filter_eq_nil_iff.mpr
    intro k hk
    have hkn : stGet (check_consistency vault idx0 st0).2.1 k ≠ none :=
      (stGet_ne_none_iff _ k).mpr hk
    rw [hst1] at hkn
    have hany := hF2 k hkn
    simp [hany]
  exact ⟨ha, hb, cc_of_empty vault _ _ ha hb⟩

/-- The watcher filter is exactly the key filter (same two conjuncts). -/
theorem watcherAccepts_eq_goodKey (p : RelPath) : watcherAccepts p = goodKey p := by
  cases h : p.getLast? with
  | none => simp [watcherAccepts, goodKey, h]
  | some n => simp [watcherAccepts, goodKey, nameEligible, h, Bool.and_comm]

/-- The relative path of a name-eligible file is a good key. -/
theorem goodKey_relPath (f : VFile) (h : nameEligible f.name = true) :
    goodKey f.relPath = true := by
  unfold goodKey VFile.relPath
  rw [List.getLast?_concat]
  exact h

/-- Assignment preserves key goodness when the assigned key is good. -/
theorem storeGood_stSet (st : IndexState) (k : RelPath) (v : String)
    (hst : StoreGood st = true) (hk : goodKey k = true) :
    StoreGood (stSet st k v) = true := by
  unfold StoreGood at hst ⊢
  rw [List.all_eq_true] at hst ⊢
  unfold stSet
  split
  · intro e he
    rcases List.mem_append.mp he with h1 | h2
    · exact hst e h1
    · rw [List.mem_singleton.mp h2]
      exact hk
  · intro e he
    obtain ⟨e0, he0, heq⟩ := List.mem_map.mp he
    by_cases hc : e0.1 = k
    · rw [← heq, if_pos hc]
      exact hk
    · rw [← heq, if_neg hc]
      exact hst e0 he0

/-- Appending a good-keyed document preserves index goodness. -/
theorem indexGood_add (idx : TextIndex) (d : Doc) (hidx : IndexGood idx = true)
    (hd : goodKey d.path = true) : IndexGood (add_document idx d) = true := by
  unfold IndexGood at hidx ⊢
  rw [List.all_eq_true] at hidx ⊢
  intro e he
  rcases List.mem_append.mp he with h1 | h2
  · exact hidx e h1
  · rw [List.mem_singleton.mp h2]
    exact hd

/-- The indexing fold only ever adds batch keys, so goodness of the batch
carries goodness of index and store through it. -/
theorem procFold_all_good : ∀ (vault : Vault) (batch : List RelPath)
    (acc : TextIndex × IndexState), (∀ q ∈ batch, goodKey q = true) →
    IndexGood acc.1 = true → StoreGood acc.2 = true →
    IndexGood (batch.foldl (processOne vault) acc).1 = true ∧
    StoreGood (batch.foldl (processOne vault) acc).2 = true
  | _, [], _, _, hi, hs => ⟨hi, hs⟩
  | vault, p :: rest, acc, hb, hi, hs => by
    rw [List.foldl_cons]
    have hp : goodKey p = true := hb p (List.mem_cons_self p rest)
    have hrest : ∀ q ∈ rest, goodKey q = true := fun q hq => hb q (List.mem_cons_of_mem p hq)
    refine procFold_all_good vault rest (processOne vault acc p) hrest ?_ ?_
    · rcases hf : findFile vault p with _ | f
      · simpa [processOne, hf] using hi
      · rcases hr : f.readText with _ | c
        · simpa [processOne, hf, hr] using hi
        · simp only [processOne, hf, hr]
          exact indexGood_add acc.1 _ hi hp
    · rcases hf : findFile vault p with _ | f
      · simpa [processOne, hf] using hs
      · rcases hr : f.readText with _ | c
        · simpa [processOne, hf, hr] using hs
        · simp only [processOne, hf, hr]
          exact storeGood_stSet acc.2 p (get_file_hash f) hs hp

/-- Deleting documents can only shrink the index, preserving goodness. -/
theorem indexGood_delFold : ∀ (l : List RelPath) (idx : TextIndex),
    IndexGood idx = true → IndexGood (l.foldl delete_by_term idx) = true
  | [], _, h => h
  | a :: rest, idx, h => by
    rw [List.foldl_cons]
    apply indexGood_delFold rest
    unfold IndexGood at h ⊢
    rw [List.all_eq_true] at h ⊢
    exact fun d hd => h d (List.mem_of_mem_filter hd)

/-- Removal keeps only original bindings. -/
theorem mem_stErase : ∀ (st : IndexState) (k : RelPath) (e : RelPath × String),
    e ∈ stErase st k → e ∈ st
  | [], _, _, h => absurd h (List.not_mem_nil _)
  | e0 :: rest, k, e, h => by
    rw [stErase] at h
    by_cases hc : e0.1 = k
    · rw [if_pos hc] at h
      exact List.mem_cons_of_mem e0 (mem_stErase rest k e h)
    · rw [if_neg hc] at h
      rcases List.mem_cons.mp h with h1 | h2
      · exact h1 ▸ List.mem_cons_self e0 rest
      · exact List.mem_cons_of_mem e0 (mem_stErase rest k e h2)

/-- Erasing bindings can only shrink the store, preserving goodness. -/
theorem storeGood_eraseFold : ∀ (l : List RelPath) (st : IndexState),
    StoreGood st = true → StoreGood (l.foldl stErase st) = true
  | [], _, h => h
  | a :: rest, st, h => by
    rw [List.foldl_cons]
    apply storeGood_eraseFold rest
    unfold StoreGood at h ⊢
    rw [List.all_eq_true] at h ⊢
    exact fun e he => h e (mem_stErase st a e he)

/-- The reconciler's upsert batch consists of relative paths of
name-eligible files, hence of good keys. -/
theorem reconcile_batch_good (vault : Vault) (st : IndexState) :
    ∀ q ∈ (filesToUpdate vault st).map VFile.relPath, goodKey q = true := by
  intro q hq
  obtain ⟨f, hf, heq⟩ := List.mem_map.mp hq
  have hcond := (List.mem_filter.mp hf).2
  have helig : nameEligible f.name = true := by
    simp only [Bool.and_eq_true] at hcond
    exact hcond.1
  rw [← heq]
  exact goodKey_relPath f helig

/-- C3 amended witness: over the singleton vault holding the readable
`a.md`, a second reconciliation after the first is a no-op. -/
theorem C3_amended_idempotent_witness :
    ((([aMdV1] : Vault).map VFile.relPath).Nodup ∧
      ∀ f ∈ ([aMdV1] : Vault), nameEligible f.name = true → f.readText ≠ none) ∧
    (filesToUpdate [aMdV1] (check_consistency [aMdV1] [] []).2.1 = [] ∧
      deletedPaths [aMdV1] (check_consistency [aMdV1] [] []).2.1 = [] ∧
      check_consistency [aMdV1] (check_consistency [aMdV1] [] []).1
          (check_consistency [aMdV1] [] []).2.1 =
        ((check_consistency [aMdV1] [] []).1, (check_consistency [aMdV1] [] []).2.1, 0)) :=
  ⟨⟨by decide, by decide⟩,
   C3_amended_idempotent_when_readable [aMdV1] [] [] (by decide) (by decide)⟩

/-- C4 amended: the exclusion the code actually enforces is name-level
only: when every stored document key, fingerprint key, and batch path
passes the final-name filter (no leading dot on the file's own name,
whitelisted suffix), the write path and the reconciler preserve that
property, and the watcher admits only paths passing the same filter —
but nothing excludes files lying under dot-directories, which
`C4_dotdir_counterexample` shows can enter both structures. -/
theorem C4_amended_only_name_checked (vault : Vault) (idx : TextIndex)
    (st : IndexState) (batch : List RelPath) (p : RelPath)
    (hidx : IndexGood idx = true) (hst : StoreGood st = true)
    (hbatch : ∀ q ∈ batch, goodKey q = true) :
    IndexGood (index_specific_files vault idx st batch).1 = true ∧
    StoreGood (index_specific_files vault idx st batch).2.1 = true ∧
    IndexGood (check_consistency vault idx st).1 = true ∧
    StoreGood (check_consistency vault idx st).2.1 = true ∧
    (∀ q ∈ handle_change batch p, goodKey q = true) := by
  refine ⟨?_, ?_, ?_, ?_, ?_⟩
  · exact (procFold_all_good vault batch (idx, st) hbatch hidx hst).1
  · exact (procFold_all_good vault batch (idx, st) hbatch hidx hst).2
  · have h1 : (check_consistency vault idx st).1 =
        (((filesToUpdate vault st).map VFile.relPath).foldl (processOne vault)
          ((deletedPaths vault st).foldl delete_by_term idx,
           (deletedPaths vault st).foldl stErase st)).1 :=
      congrArg Prod.fst (cc_eq vault idx st)
    rw [h1]
    exact (procFold_all_good vault _ _ (reconcile_batch_good vault st)
      (indexGood_delFold _ idx hidx) (storeGood_eraseFold _ st hst)).1
  · have h2 : (check_consistency vault idx st).2.1 =
        (((filesToUpdate vault st).map VFile.relPath).foldl (processOne vault)
          ((deletedPaths vault st).foldl delete_by_term idx,
           (deletedPaths vault st).foldl stErase st)).2 :=
      congrArg Prod.snd (cc_eq vault idx st)
    rw [h2]
    exact (procFold_all_good vault _ _ (reconcile_batch_good vault st)
      (indexGood_delFold _ idx hidx) (storeGood_eraseFold _ st hst)).2
  · intro q hq
    unfold handle_change at hq
    by_cases hw : watcherAccepts p = true
    · rw [if_pos hw] at hq
      by_cases hm : p ∈ batch
      · rw [if_pos hm] at hq
        exact hbatch q hq
      · rw [if_neg hm] at hq
        rcases List.mem_append.mp hq with h1 | h2
        · exact hbatch q h1
        · rw [List.mem_singleton.mp h2, ← watcherAccepts_eq_goodKey]
          exact hw
    · rw [if_neg hw] at hq
      exact hbatch q hq

/-- C4 amended witness: a concrete good batch and pending set stay good
through the write path, the reconciler, and the watcher. -/
theorem C4_amended_only_name_checked_witness :
    (IndexGood [] = true ∧ StoreGood [] = true ∧
      ∀ q ∈ ([[aMdS]] : List RelPath), goodKey q = true) ∧
    (IndexGood (index_specific_files [aMdV1] [] [] [[aMdS]]).1 = true ∧
      StoreGood (index_specific_files [aMdV1] [] [] [[aMdS]]).2.1 = true ∧
      IndexGood (check_consistency [aMdV1] [] []).1 = true ∧
      StoreGood (check_consistency [aMdV1] [] []).2.1 = true ∧
      ∀ q ∈ handle_change [[aMdS]] [noteMdS], goodKey q = true) :=
  ⟨⟨by decide, by decide, by decide⟩,
   C4_amended_only_name_checked [aMdV1] [] [] [[aMdS]] [noteMdS]
     (by decide) (by decide) (by decide)⟩
